import Mathlib

/-!
Shallow embedding of the deal.II Tpetra sparse-matrix wrapper
(`include/deal.II/lac/trilinos_tpetra_sparse_matrix.templates.h`).

The wrapped `Tpetra::CrsMatrix` is modelled as an explicit record: index
maps are lists of global indices (the local index of a global id is its
position in the list), the stored structure and values are a positional
list of rows, each row a list of (global column, value) pairs, together
with the `isFillComplete` and `isStaticGraph` flags.  The deal.II
`SparseMatrix` wrapper adds its `column_space_map` and the `compressed`
bookkeeping flag.  Matrix values are modelled by `Val`, which separates
finite values (as integers) from the two non-finite classes NaN and Inf,
so that the `AssertIsFinite` checks and IEEE comparisons (`v != 0`,
`std::fabs(v) > tol`) of the source can be reproduced exactly.
Fatal `Assert` macros are modelled as `Except AssertErr` error returns.
-/

/-- Matrix scalar: a finite value, NaN, or Inf. -/
inductive Val where
  | fin (v : Int)
  | nan
  | inf
deriving DecidableEq, Repr

/-- Models `numbers::is_finite` as used by `AssertIsFinite`. -/
def Val.isFinite : Val → Bool
  | .fin _ => true
  | .nan => false
  | .inf => false

/-- Models the C++ comparison `v == Number(0)` (false for NaN and Inf). -/
def Val.eqZero : Val → Bool
  | .fin v => v == 0
  | .nan => false
  | .inf => false

/-- Addition; NaN is absorbing, Inf absorbs finite values. -/
def Val.add : Val → Val → Val
  | .nan, _ => .nan
  | _, .nan => .nan
  | .inf, _ => .inf
  | _, .inf => .inf
  | .fin a, .fin b => .fin (a + b)

/-- Multiplication; NaN is absorbing, `Inf * 0 = NaN` as in IEEE. -/
def Val.mul : Val → Val → Val
  | .nan, _ => .nan
  | _, .nan => .nan
  | .inf, .fin v => if v == 0 then .nan else .inf
  | .fin v, .inf => if v == 0 then .nan else .inf
  | .inf, .inf => .inf
  | .fin a, .fin b => .fin (a * b)

/-- Models `std::fabs(v) > tol` (false for NaN, true for Inf). -/
def Val.fabsGt (v : Val) (tol : Int) : Bool :=
  match v with
  | .fin a => tol < |a|
  | .nan => false
  | .inf => true

/-- The fatal assertion conditions raised by the modelled source. -/
inductive AssertErr where
  | indexRange
  | notFinite
  | dimensionMismatch
  | sourceEqualsDestination
  | matrixNotCompressed
  | colMapMissmatch
  | domainMapMissmatch
  | accessToNonLocalElement
  | invalidIndex
deriving DecidableEq, Repr

deriving instance DecidableEq for Except

/-- `Tpetra::Map::getLocalElement`: position of a global id in the map,
`none` standing for `Teuchos::OrdinalTraits<int>::invalid()`. -/
def locIdx : List Nat → Nat → Option Nat
  | [], _ => none
  | x :: rest, g => if x = g then some 0 else (locIdx rest g).map (· + 1)

/-- One stored row: (global column, value) pairs. -/
abbrev MatRow := List (Nat × Val)

/-- Model of the wrapped `Tpetra::CrsMatrix`. -/
structure TpetraMatrix where
  rowMap : List Nat
  colMap : List Nat
  domainMap : List Nat
  rangeMap : List Nat
  rows : List MatRow
  fillComplete : Bool
  staticGraph : Bool
deriving DecidableEq, Repr

/-- `Tpetra::CrsMatrix::resumeFill`. -/
def TpetraMatrix.resumeFill (m : TpetraMatrix) : TpetraMatrix :=
  { m with fillComplete := false }

/-- `Tpetra::CrsMatrix::fillComplete(domain, range)`. -/
def TpetraMatrix.fillCompleteMaps (m : TpetraMatrix)
    (dom ran : List Nat) : TpetraMatrix :=
  { m with fillComplete := true, domainMap := dom, rangeMap := ran }

/-- The locally stored row of a global row id (empty if not owned). -/
def TpetraMatrix.rowOf (m : TpetraMatrix) (g : Nat) : MatRow :=
  match locIdx m.rowMap g with
  | some k => m.rows.getD k []
  | none => []

/-- Global column indices currently present in the structure of row `g`. -/
def TpetraMatrix.rowCols (m : TpetraMatrix) (g : Nat) : List Nat :=
  (m.rowOf g).map Prod.fst

/-- Apply `f` to the stored row of global row `g`; rows not locally
stored are untouched (nonlocal handling is out of scope). -/
def TpetraMatrix.updateRow (m : TpetraMatrix) (g : Nat)
    (f : MatRow → MatRow) : TpetraMatrix :=
  match locIdx m.rowMap g with
  | some k => { m with rows := m.rows.set k (f (m.rows.getD k [])) }
  | none => m

/-- Insert one entry into a row: an already-present column accumulates
(as Tpetra merges duplicate inserts by summation), a new column is
appended to the structure. -/
def insertPair (row : MatRow) (c : Nat) (v : Val) : MatRow :=
  match row with
  | [] => [(c, v)]
  | (c0, v0) :: rest =>
      if c0 = c then (c0, Val.add v0 v) :: rest
      else (c0, v0) :: insertPair rest c v

/-- Replace one entry of a row; a structurally absent column is skipped,
never inserted (`Tpetra::CrsMatrix::replaceGlobalValues`). -/
def replacePair (row : MatRow) (c : Nat) (v : Val) : MatRow :=
  match row with
  | [] => []
  | (c0, v0) :: rest =>
      if c0 = c then (c0, v) :: rest
      else (c0, v0) :: replacePair rest c v

/-- Sum one entry into a row; a structurally absent column is skipped
(`Tpetra::CrsMatrix::sumIntoGlobalValues`). -/
def sumPair (row : MatRow) (c : Nat) (v : Val) : MatRow :=
  match row with
  | [] => []
  | (c0, v0) :: rest =>
      if c0 = c then (c0, Val.add v0 v) :: rest
      else (c0, v0) :: sumPair rest c v

def insertList (row : MatRow) (pairs : List (Nat × Val)) : MatRow :=
  pairs.foldl (fun r cv => insertPair r cv.1 cv.2) row

def replaceList (row : MatRow) (pairs : List (Nat × Val)) : MatRow :=
  pairs.foldl (fun r cv => replacePair r cv.1 cv.2) row

def sumList (row : MatRow) (pairs : List (Nat × Val)) : MatRow :=
  pairs.foldl (fun r cv => sumPair r cv.1 cv.2) row

/-- `Tpetra::CrsMatrix::insertGlobalValues`. -/
def TpetraMatrix.insertGlobalValues (m : TpetraMatrix) (g : Nat)
    (pairs : List (Nat × Val)) : TpetraMatrix :=
  m.updateRow g (insertList · pairs)

/-- `Tpetra::CrsMatrix::replaceGlobalValues`. -/
def TpetraMatrix.replaceGlobalValues (m : TpetraMatrix) (g : Nat)
    (pairs : List (Nat × Val)) : TpetraMatrix :=
  m.updateRow g (replaceList · pairs)

/-- `Tpetra::CrsMatrix::sumIntoGlobalValues`. -/
def TpetraMatrix.sumIntoGlobalValues (m : TpetraMatrix) (g : Nat)
    (pairs : List (Nat × Val)) : TpetraMatrix :=
  m.updateRow g (sumList · pairs)

/-- Model of `LinearAlgebra::TpetraWrappers::SparseMatrix`. -/
structure SparseMatrix where
  column_space_map : List Nat
  mat : TpetraMatrix
  compressed : Bool
deriving DecidableEq, Repr

/-- `SparseMatrix::m()` (global row count; serial model). -/
def SparseMatrix.m (A : SparseMatrix) : Nat := A.mat.rowMap.length

/-- `SparseMatrix::n()` (global column count; serial model). -/
def SparseMatrix.n (A : SparseMatrix) : Nat := A.mat.domainMap.length

/-- `SparseMatrix::compress`: if not yet compressed, fill-complete the
Tpetra matrix with `(column_space_map, rowMap)` and mark compressed;
otherwise do nothing. -/
def SparseMatrix.compress (A : SparseMatrix) : SparseMatrix :=
  if A.compressed = false then
    { A with mat := A.mat.fillCompleteMaps A.column_space_map A.mat.rowMap,
             compressed := true }
  else A

/-- `SparseMatrix::resume_fill`: if compressed, resume fill and clear
the flag; otherwise do nothing. -/
def SparseMatrix.resume_fill (A : SparseMatrix) : SparseMatrix :=
  if A.compressed then
    { A with mat := A.mat.resumeFill, compressed := false }
  else A

/-- The empty matrix produced by the default constructor: 0x0 maps on a
self communicator, matrix built from an already fill-completed empty
graph (hence static graph, matrix itself fill-active), and
`compressed = false` as set on the last line of the constructor. -/
def SparseMatrix.defaultMatrix : SparseMatrix :=
  { column_space_map := []
    mat := { rowMap := [], colMap := [], domainMap := [], rangeMap := [],
             rows := [], fillComplete := false, staticGraph := true }
    compressed := false }

/-- `SparseMatrix::clear`: rebuild the same empty 0x0 matrix as the
default constructor, but set `compressed = true`. -/
def SparseMatrix.clear (_A : SparseMatrix) : SparseMatrix :=
  { column_space_map := []
    mat := { rowMap := [], colMap := [], domainMap := [], rangeMap := [],
             rows := [], fillComplete := false, staticGraph := true }
    compressed := true }

/-- Model of a finalized `TpetraWrappers::SparsityPattern`: a fixed
per-row column structure together with the four maps its graph was
fill-completed with. -/
structure SparsityPat where
  graphRows : List (List Nat)
  rowMap : List Nat
  colMap : List Nat
  domainMap : List Nat
  rangeMap : List Nat
deriving DecidableEq, Repr

/-- The constructor `SparseMatrix(const SparsityPattern &)`: adopt the
pattern's graph (static graph, zero values, matrix fill-active) and its
domain partitioner as `column_space_map`, set `compressed = false`, and
then call `compress(VectorOperation::add)` before returning. -/
def SparseMatrix.fromSparsityPattern (sp : SparsityPat) : SparseMatrix :=
  let A : SparseMatrix :=
    { column_space_map := sp.domainMap
      mat := { rowMap := sp.rowMap, colMap := sp.colMap,
               domainMap := sp.domainMap, rangeMap := sp.rangeMap,
               rows := sp.graphRows.map (fun cs =>
                 cs.map (fun c => (c, Val.fin 0))),
               fillComplete := false, staticGraph := true }
      compressed := false }
  A.compress

/-- `SparseMatrix::copy_from`.  The Boolean `same` stands for the C++
pointer identity `this == &source`: when it holds the call returns
immediately, otherwise a deep copy of `source.mat` is taken, the
column space map is re-derived from the copied matrix's column map and
the compressed flag is copied. -/
def SparseMatrix.copy_from (A source : SparseMatrix)
    (same : Bool) : SparseMatrix :=
  if same then A
  else
    { column_space_map := source.mat.colMap
      mat := source.mat
      compressed := source.compressed }
/-- The zero-elision pass of `SparseMatrix::set`: walk the (column,
value) pairs in order; `AssertIsFinite` on every value (fatal on NaN or
Inf), and keep only the pairs whose value compares `!= 0`. -/
def elideFilterSet : List (Nat × Val) → Except AssertErr (List (Nat × Val))
  | [] => .ok []
  | (c, v) :: rest =>
      if v.isFinite = false then .error .notFinite
      else if v.eqZero then elideFilterSet rest
      else do
        let r ← elideFilterSet rest
        .ok ((c, v) :: r)

/-- The surviving (column, value) pairs a `set` call hands to Tpetra:
the zero-elided, finiteness-checked subset when `elide_zero_values` is
true, the raw pairs (no check at all) otherwise. -/
def setSurvivors (elide : Bool) (pairs : List (Nat × Val)) :
    Except AssertErr (List (Nat × Val)) :=
  if elide then elideFilterSet pairs else .ok pairs

/-- The state snippet shared by `set` and `add`:
`if (compressed || matrix->isFillComplete()) { matrix->resumeFill();
compressed = false; }` — force the matrix into the editable state. -/
def SparseMatrix.forceEditable (A : SparseMatrix) : SparseMatrix :=
  if A.compressed || A.mat.fillComplete then
    { A with mat := A.mat.resumeFill, compressed := false }
  else A

/-- `SparseMatrix::set(row, n_cols, col_indices, values,
elide_zero_values)`: range-check the row against `m()`, build the
surviving pairs (finiteness-checked and zero-elided only when
`elide_zero_values`), force the matrix editable, then insert the pairs
when the graph is not static and replace them when it is. -/
def SparseMatrix.set (A : SparseMatrix) (row : Nat) (cols : List Nat)
    (vals : List Val) (elide : Bool) : Except AssertErr SparseMatrix :=
  if A.m ≤ row then .error .indexRange
  else do
    let pairs ← setSurvivors elide (cols.zip vals)
    let A1 := A.forceEditable
    if A1.mat.staticGraph = false then
      .ok { A1 with mat := A1.mat.insertGlobalValues row pairs }
    else
      .ok { A1 with mat := A1.mat.replaceGlobalValues row pairs }

/-- `std::count(values, values + n_cols, Number(0))`. -/
def countZeros (vals : List Val) : Nat := vals.countP Val.eqZero

/-- The array-building loop of `add` with `elide_zero_values = true`:
skip values comparing `== 0`; otherwise `AssertIsFinite`, the column
bound check against `n()`, and the (as written in the source)
`AssertIndexRange(n_columns, n_zero_entries)` counter check, then keep
the pair.  `k` is the running `n_columns` counter. -/
def buildAddElide (n nZero : Nat) :
    List (Nat × Val) → Nat → Except AssertErr (List (Nat × Val))
  | [], _ => .ok []
  | (c, v) :: rest, k =>
      if v.eqZero then buildAddElide n nZero rest k
      else if v.isFinite = false then .error .notFinite
      else if n ≤ c then .error .indexRange
      else if nZero ≤ k then .error .indexRange
      else do
        let r ← buildAddElide n nZero rest (k + 1)
        .ok ((c, v) :: r)

/-- The array-building loop of `add` with `elide_zero_values = false`:
`AssertIsFinite` and the column bound check on every pair. -/
def buildAddNoElide (n : Nat) :
    List (Nat × Val) → Except AssertErr (List (Nat × Val))
  | [] => .ok []
  | (c, v) :: rest =>
      if v.isFinite = false then .error .notFinite
      else if n ≤ c then .error .indexRange
      else do
        let r ← buildAddNoElide n rest
        .ok ((c, v) :: r)

/-- `SparseMatrix::add(row, n_cols, col_indices, values,
elide_zero_values)`: range-check the row, force the matrix editable,
count the zero values, exit early when every value is zero, otherwise
build the checked pair arrays and sum them into the global matrix. -/
def SparseMatrix.add (A : SparseMatrix) (row : Nat) (cols : List Nat)
    (vals : List Val) (elide : Bool) : Except AssertErr SparseMatrix :=
  if A.m ≤ row then .error .indexRange
  else
    let A1 := A.forceEditable
    let nZero := if elide then countZeros vals else 0
    if nZero = vals.length then .ok A1
    else do
      let pairs ←
        if elide then buildAddElide A.n nZero (cols.zip vals) 0
        else buildAddNoElide A.n (cols.zip vals)
      .ok { A1 with mat := A1.mat.sumIntoGlobalValues row pairs }

/-- Linear scan of a stored row (as `getLocalRowCopy` delivers it, with
local column indices) for local column index `b`: the first entry whose
column translates to `b` yields its value. -/
def scanRow (colMap : List Nat) (b : Nat) : MatRow → Option Val
  | [] => none
  | (c, v) :: rest =>
      if locIdx colMap c = some b then some v else scanRow colMap b rest

/-- `SparseMatrix::element(i, j, no_error)`: translate the global row
and column through the row/column maps; if either translation is
invalid, return zero (tolerant) or fail (intolerant).  Otherwise assert
the matrix is fill-complete, copy the row and scan it linearly; a found
entry returns its stored value, a structurally absent pair returns zero
(tolerant) or fails (intolerant). -/
def SparseMatrix.element (A : SparseMatrix) (i j : Nat)
    (noError : Bool) : Except AssertErr Val :=
  match locIdx A.mat.rowMap i, locIdx A.mat.colMap j with
  | some a, some b =>
      if A.mat.fillComplete = false then .error .matrixNotCompressed
      else
        match scanRow A.mat.colMap b (A.mat.rows.getD a []) with
        | some v => .ok v
        | none =>
            if noError then .ok (Val.fin 0) else .error .invalidIndex
  | _, _ =>
      if noError then .ok (Val.fin 0)
      else .error .accessToNonLocalElement

/-- Distributed vector operand: an identity tag standing for the C++
object address (for the `&src != &dst` aliasing check), its
distribution map, and its local values aligned with the map. -/
structure Vec where
  addr : Nat
  dist : List Nat
  vals : List Val
deriving DecidableEq, Repr

/-- Value of the vector at a global index (zero off-process). -/
def Vec.get (x : Vec) (g : Nat) : Val :=
  match locIdx x.dist g with
  | some k => x.vals.getD k (Val.fin 0)
  | none => Val.fin 0

/-- First stored value at global column `c` of a row. -/
def lookupPair (c : Nat) : MatRow → Option Val
  | [] => none
  | (c0, v) :: rest => if c0 = c then some v else lookupPair c rest

/-- Dot product of one stored row with a vector. -/
def rowDot (row : MatRow) (x : Vec) : Val :=
  row.foldr (fun cv acc => Val.add (Val.mul cv.2 (x.get cv.1)) acc)
    (Val.fin 0)

/-- `(A x)(g)`: row `g` of the matrix against `x`. -/
def TpetraMatrix.applyNoTrans (m : TpetraMatrix) (x : Vec) (g : Nat) : Val :=
  rowDot (m.rowOf g) x

/-- `(A^T x)(c)`: column `c` of the matrix against `x`. -/
def TpetraMatrix.applyTrans (m : TpetraMatrix) (x : Vec) (c : Nat) : Val :=
  (m.rowMap.zip m.rows).foldr
    (fun gr acc =>
      match lookupPair c gr.2 with
      | some v => Val.add (Val.mul v (x.get gr.1)) acc
      | none => acc)
    (Val.fin 0)

/-- `SparseMatrix::vmult(dst, src)`: assert no aliasing, fill-complete,
`src` on the domain map and `dst` on the range map; then overwrite
`dst` with `A src`. -/
def SparseMatrix.vmult (A : SparseMatrix) (dst src : Vec) :
    Except AssertErr Vec :=
  if dst.addr = src.addr then .error .sourceEqualsDestination
  else if A.mat.fillComplete = false then .error .matrixNotCompressed
  else if src.dist ≠ A.mat.domainMap then .error .colMapMissmatch
  else if dst.dist ≠ A.mat.rangeMap then .error .domainMapMissmatch
  else .ok { dst with vals := dst.dist.map (A.mat.applyNoTrans src) }

/-- `SparseMatrix::Tvmult(dst, src)`: like `vmult` with the two map
checks swapped; overwrites `dst` with `A^T src`. -/
def SparseMatrix.Tvmult (A : SparseMatrix) (dst src : Vec) :
    Except AssertErr Vec :=
  if dst.addr = src.addr then .error .sourceEqualsDestination
  else if A.mat.fillComplete = false then .error .matrixNotCompressed
  else if dst.dist ≠ A.mat.domainMap then .error .colMapMissmatch
  else if src.dist ≠ A.mat.rangeMap then .error .domainMapMissmatch
  else .ok { dst with vals := dst.dist.map (A.mat.applyTrans src) }

/-- `SparseMatrix::vmult_add(dst, src)`: same preconditions as `vmult`;
accumulates `A src` into `dst` (apply with alpha = beta = 1). -/
def SparseMatrix.vmult_add (A : SparseMatrix) (dst src : Vec) :
    Except AssertErr Vec :=
  if dst.addr = src.addr then .error .sourceEqualsDestination
  else if A.mat.fillComplete = false then .error .matrixNotCompressed
  else if src.dist ≠ A.mat.domainMap then .error .colMapMissmatch
  else if dst.dist ≠ A.mat.rangeMap then .error .domainMapMissmatch
  else
    let newVals := (dst.dist.zip dst.vals).map
      (fun gv => Val.add gv.2 (A.mat.applyNoTrans src gv.1))
    .ok { dst with vals := newVals }

/-- `SparseMatrix::Tvmult_add(dst, src)`: same preconditions as
`Tvmult`; accumulates `A^T src` into `dst`. -/
def SparseMatrix.Tvmult_add (A : SparseMatrix) (dst src : Vec) :
    Except AssertErr Vec :=
  if dst.addr = src.addr then .error .sourceEqualsDestination
  else if A.mat.fillComplete = false then .error .matrixNotCompressed
  else if dst.dist ≠ A.mat.domainMap then .error .colMapMissmatch
  else if src.dist ≠ A.mat.rangeMap then .error .domainMapMissmatch
  else
    let newVals := (dst.dist.zip dst.vals).map
      (fun gv => Val.add gv.2 (A.mat.applyTrans src gv.1))
    .ok { dst with vals := newVals }

/-- Advance of the sparsity-pattern iterator in the reinit value copy:
`while (select_index->column() < it->column()) ++select_index`. -/
def dropSel (bound : Nat) (prow : List Nat) : List Nat :=
  prow.dropWhile (fun p => p < bound)

/-- Advance of the reference-matrix iterator:
`while (it->column() < select_index->column()) ++it`; a sparsity
iterator already at its end behaves as an infinite column, draining the
reference row. -/
def dropIt (bound : Option Nat) (mrow : MatRow) : MatRow :=
  mrow.dropWhile (fun cv =>
    match bound with
    | none => true
    | some b => cv.1 < b)

/-- The two-pointer merge loop of the reinit value copy (lines 656-675
of the source): while neither the reference-matrix row nor the target
sparsity row is exhausted, advance the sparsity iterator up to the
reference column, advance the reference iterator up to the sparsity
column, break if the reference row is exhausted, keep the reference
entry only when its magnitude is strictly above the drop tolerance,
and advance both iterators.  The fuel argument only bounds the
iteration count (every iteration consumes at least one reference
entry, so `mrow.length` fuel never runs out); `mergeLoop` below
supplies it. -/
def mergeLoopF (tol : Int) : Nat → MatRow → List Nat → MatRow
  | 0, _, _ => []
  | _, [], _ => []
  | _, _ :: _, [] => []
  | fuel + 1, (c0, v0) :: mtail, p0 :: ptail =>
      let prow2 := dropSel c0 (p0 :: ptail)
      match dropIt prow2.head? ((c0, v0) :: mtail) with
      | [] => []
      | (c, v) :: mrest =>
          let rest := mergeLoopF tol fuel mrest (prow2.drop 1)
          if v.fabsGt tol then (c, v) :: rest else rest

/-- The merge loop on a reference-matrix row `mrow` and a target
sparsity row `prow`, with enough fuel for the whole walk. -/
def mergeLoop (tol : Int) (mrow : MatRow) (prow : List Nat) : MatRow :=
  mergeLoopF tol mrow.length mrow prow

/-- One row of the reinit value copy (lines 638-681 of the source): for
a square sparsity pattern the diagonal entry is handled first (the
reference row is asserted to start at the diagonal, the entry is kept
iff its magnitude is strictly above the drop tolerance, and both
iterators advance past it), then the two-pointer merge loop runs; for a
non-square pattern only the merge loop runs.  The result is the
(column, value) list handed to `set(row, ..., false)`. -/
def copyRowValues (square : Bool) (row : Nat) (tol : Int)
    (mrow : MatRow) (prow : List Nat) : Except AssertErr MatRow :=
  if square then
    match mrow, prow with
    | (c, v) :: mtail, _ :: ptail =>
        if c ≠ row then .error .dimensionMismatch
        else if v.fabsGt tol then .ok ((c, v) :: mergeLoop tol mtail ptail)
        else .ok (mergeLoop tol mtail ptail)
    | _, _ => .error .invalidIndex
  else .ok (mergeLoop tol mrow prow)

/-- The whole value-copy phase of
`reinit(row_part, col_part, dealii_sparse_matrix, ...)`: for every
locally owned row, compute the kept entries with `copyRowValues` and
hand them to `set(row, ..., false)`; finally compress. -/
def SparseMatrix.reinitFromDealii (A : SparseMatrix) (square : Bool)
    (tol : Int) (ownedRows : List Nat) (refRow : Nat → MatRow)
    (patRow : Nat → List Nat) : Except AssertErr SparseMatrix :=
  match ownedRows.foldl
      (fun (acc : Except AssertErr SparseMatrix) (r : Nat) => do
        let B ← acc
        let out ← copyRowValues square r tol (refRow r) (patRow r)
        B.set r (out.map Prod.fst) (out.map Prod.snd) false)
      (.ok A) with
  | .ok B => .ok B.compress
  | .error e => .error e

/-! ### Concrete instances used by counterexamples and witnesses -/

/-- A 2x2 serial matrix with a dynamic (non-static) graph, editable. -/
def Adyn : SparseMatrix :=
  { column_space_map := [0, 1]
    mat := { rowMap := [0, 1], colMap := [0, 1], domainMap := [0, 1],
             rangeMap := [0, 1], rows := [[(0, Val.fin 1)], []],
             fillComplete := false, staticGraph := false }
    compressed := false }

/-- A 2x2 serial matrix with a static graph, compressed. -/
def Afix : SparseMatrix :=
  { column_space_map := [0, 1]
    mat := { rowMap := [0, 1], colMap := [0, 1], domainMap := [0, 1],
             rangeMap := [0, 1],
             rows := [[(0, Val.fin 2), (1, Val.fin 3)], [(1, Val.fin 4)]],
             fillComplete := true, staticGraph := true }
    compressed := true }

/-- A destination vector on the maps of `Afix`. -/
def Vdst : Vec := { addr := 0, dist := [0, 1], vals := [Val.fin 10, Val.fin 20] }

/-- A source vector on the maps of `Afix`, distinct storage from `Vdst`. -/
def Vsrc : Vec := { addr := 1, dist := [0, 1], vals := [Val.fin 1, Val.fin 2] }

/-! ## Theorems -/

/-- C6: for every matrix state, `compress()` twice in a row equals
`compress()` once, and `resume_fill()` twice equals `resume_fill()`
once: the second call is a no-op. -/
theorem compress_resume_fill_idempotent (A : SparseMatrix) :
    (A.compress).compress = A.compress ∧
    (A.resume_fill).resume_fill = A.resume_fill := by
  constructor
  · by_cases h : A.compressed = false <;>
      simp [SparseMatrix.compress, h]
  · by_cases h : A.compressed <;>
      simp [SparseMatrix.resume_fill, h]

/-- C7, counterexample: the claim says the default constructor yields a
matrix in the Finalized fill state and that `clear()` resets to that
same state.  In the code the default constructor ends with
`compressed = false` while `clear()` ends with `compressed = true`, so
the default-constructed matrix is not Finalized and the two states
differ. -/
theorem default_not_finalized_cex :
    SparseMatrix.defaultMatrix.compressed = false ∧
    (SparseMatrix.defaultMatrix.clear).compressed = true ∧
    SparseMatrix.defaultMatrix ≠ SparseMatrix.defaultMatrix.clear := by
  refine ⟨rfl, rfl, ?_⟩
  intro h
  exact Bool.false_ne_true (congrArg SparseMatrix.compressed h)

/-- C7, amended: the default constructor produces an empty 0x0
single-process matrix with `compressed = false` (not Finalized), and
`clear()` resets any matrix to the identical empty 0x0 state except
that it sets `compressed = true`. -/
theorem default_and_clear_states (A : SparseMatrix) :
    A.clear = SparseMatrix.defaultMatrix.clear ∧
    (A.clear).compressed = true ∧
    (A.clear).m = 0 ∧ (A.clear).n = 0 ∧
    (A.clear).mat = SparseMatrix.defaultMatrix.mat ∧
    (A.clear).column_space_map = SparseMatrix.defaultMatrix.column_space_map ∧
    SparseMatrix.defaultMatrix.m = 0 ∧ SparseMatrix.defaultMatrix.n = 0 ∧
    SparseMatrix.defaultMatrix.compressed = false := by
  refine ⟨rfl, rfl, rfl, rfl, rfl, rfl, rfl, rfl, rfl⟩

/-- A concrete finalized 1x1 sparsity pattern. -/
def spOne : SparsityPat :=
  { graphRows := [[0]], rowMap := [0], colMap := [0],
    domainMap := [0], rangeMap := [0] }

/-- C5, counterexample: the claim says a matrix constructed from an
already-finalized sparsity pattern becomes Finalized only after a
subsequent explicit `compress` call by the caller and that construction
never silently compresses.  The constructor itself calls
`compress(VectorOperation::add)` on its last line, so the constructed
matrix is already compressed when the constructor returns. -/
theorem construct_from_pattern_compressed_cex :
    (SparseMatrix.fromSparsityPattern spOne).compressed = true := by
  decide

/-- C5, amended: the constructor from a finalized graph-bearing
sparsity object adopts its graph (static graph, structure taken row by
row from the pattern) and its domain partitioner as the column
partitioning, and then itself performs the one `compress` call, so the
matrix is already Finalized when construction completes. -/
theorem construct_from_pattern_state (sp : SparsityPat) :
    (SparseMatrix.fromSparsityPattern sp).compressed = true ∧
    (SparseMatrix.fromSparsityPattern sp).column_space_map = sp.domainMap ∧
    (SparseMatrix.fromSparsityPattern sp).mat.staticGraph = true ∧
    (SparseMatrix.fromSparsityPattern sp).mat.rows.map
        (fun r => r.map Prod.fst) = sp.graphRows := by
  refine ⟨rfl, rfl, rfl, ?_⟩
  simp [SparseMatrix.fromSparsityPattern, SparseMatrix.compress,
    TpetraMatrix.fillCompleteMaps, List.map_map, Function.comp_def]

/-- C10: `copy_from` with the source being the same object (the pointer
identity `this == &source` holds) returns immediately, leaving
structure, values, column partitioning and the compressed flag exactly
as they were. -/
theorem copy_from_self_noop (A : SparseMatrix) :
    A.copy_from A true = A := by
  simp [SparseMatrix.copy_from]

/-! ### Helper lemmas about maps, rows and the entry helpers -/

theorem locIdx_lt_length : ∀ {xs : List Nat} {g k : Nat},
    locIdx xs g = some k → k < xs.length := by
  intro xs
  induction xs with
  | nil => intro g k h; simp [locIdx] at h
  | cons x rest ih =>
    intro g k h
    simp only [locIdx] at h
    by_cases hx : x = g
    · rw [if_pos hx] at h
      cases h
      simp
    · rw [if_neg hx] at h
      obtain ⟨a, ha, hk⟩ := Option.map_eq_some'.mp h
      have := ih ha
      simp only [List.length_cons]
      omega

theorem locIdx_of_mem : ∀ {xs : List Nat} {g : Nat},
    g ∈ xs → ∃ k, locIdx xs g = some k := by
  intro xs
  induction xs with
  | nil => intro g h; simp at h
  | cons x rest ih =>
    intro g h
    by_cases hx : x = g
    · exact ⟨0, by simp [locIdx, hx]⟩
    · have hg : g ∈ rest := by
        rcases List.mem_cons.mp h with h1 | h1
        · exact absurd h1.symm hx
        · exact h1
      obtain ⟨k, hk⟩ := ih hg
      exact ⟨k + 1, by simp [locIdx, hx, hk]⟩

theorem getD_set (l : List MatRow) (k k' : Nat) (a d : MatRow) :
    (l.set k a).getD k' d =
      if k = k' ∧ k < l.length then a else l.getD k' d := by
  induction l generalizing k k' with
  | nil => simp [List.set]
  | cons x rest ih =>
    cases k with
    | zero =>
      cases k' with
      | zero => simp
      | succ j => simp
    | succ i =>
      cases k' with
      | zero => simp
      | succ j =>
        simp only [List.set, List.getD_cons_succ, List.length_cons, ih]
        by_cases hij : i = j
        · subst hij
          by_cases hl : i < rest.length <;> simp [hl, Nat.succ_lt_succ_iff]
        · have : ¬(i + 1 = j + 1) := by omega
          simp [hij, this]

theorem insertPair_cols_sub {row : MatRow} {c' : Nat} (c : Nat) (v : Val)
    (h : c' ∈ row.map Prod.fst) :
    c' ∈ (insertPair row c v).map Prod.fst := by
  induction row with
  | nil => simp at h
  | cons hd rest ih =>
    obtain ⟨ch, vh⟩ := hd
    simp only [insertPair]
    by_cases hc : ch = c
    · simpa [hc] using h
    · rw [if_neg hc]
      simp only [List.map_cons, List.mem_cons] at h ⊢
      rcases h with h1 | h1
      · exact Or.inl h1
      · exact Or.inr (ih h1)

theorem insertPair_col_mem (row : MatRow) (c : Nat) (v : Val) :
    c ∈ (insertPair row c v).map Prod.fst := by
  induction row with
  | nil => simp [insertPair]
  | cons hd rest ih =>
    obtain ⟨ch, vh⟩ := hd
    simp only [insertPair]
    by_cases hc : ch = c
    · simp [hc]
    · simp only [if_neg hc, List.map_cons, List.mem_cons]
      exact Or.inr ih

theorem insertList_cols_sub {pairs : List (Nat × Val)} :
    ∀ {row : MatRow} {c' : Nat}, c' ∈ row.map Prod.fst →
      c' ∈ (insertList row pairs).map Prod.fst := by
  induction pairs with
  | nil => intro row c' h; simpa [insertList] using h
  | cons p rest ih =>
    intro row c' h
    simp only [insertList, List.foldl_cons] at *
    exact ih (insertPair_cols_sub p.1 p.2 h)

theorem insertList_mem {pairs : List (Nat × Val)} :
    ∀ {row : MatRow} {c : Nat} {v : Val}, (c, v) ∈ pairs →
      c ∈ (insertList row pairs).map Prod.fst := by
  induction pairs with
  | nil => intro row c v h; simp at h
  | cons p rest ih =>
    intro row c v h
    simp only [insertList, List.foldl_cons]
    rcases List.mem_cons.mp h with h1 | h1
    · subst h1
      exact insertList_cols_sub (insertPair_col_mem row c v)
    · exact ih h1

theorem replacePair_cols (row : MatRow) (c : Nat) (v : Val) :
    (replacePair row c v).map Prod.fst = row.map Prod.fst := by
  induction row with
  | nil => simp [replacePair]
  | cons hd rest ih =>
    obtain ⟨ch, vh⟩ := hd
    simp only [replacePair]
    by_cases hc : ch = c
    · simp [hc]
    · simp [hc, ih]

theorem replaceList_cols (pairs : List (Nat × Val)) :
    ∀ (row : MatRow), (replaceList row pairs).map Prod.fst = row.map Prod.fst := by
  induction pairs with
  | nil => intro row; simp [replaceList]
  | cons p rest ih =>
    intro row
    simp only [replaceList, List.foldl_cons] at *
    rw [ih, replacePair_cols]

theorem lookupPair_replacePair_self {row : MatRow} {c : Nat}
    (h : c ∈ row.map Prod.fst) (v : Val) :
    lookupPair c (replacePair row c v) = some v := by
  induction row with
  | nil => simp at h
  | cons hd rest ih =>
    obtain ⟨ch, vh⟩ := hd
    simp only [replacePair]
    by_cases hc : ch = c
    · simp [lookupPair, hc]
    · simp only [if_neg hc, lookupPair, if_neg hc]
      apply ih
      simp only [List.map_cons, List.mem_cons] at h
      rcases h with h1 | h1
      · exact absurd h1.symm hc
      · exact h1

theorem lookupPair_replacePair_ne {c' c : Nat} (h : c' ≠ c)
    (row : MatRow) (v : Val) :
    lookupPair c' (replacePair row c v) = lookupPair c' row := by
  induction row with
  | nil => simp [replacePair]
  | cons hd rest ih =>
    obtain ⟨ch, vh⟩ := hd
    simp only [replacePair]
    by_cases hc : ch = c
    · have hne : ¬(ch = c') := by rw [hc]; exact fun he => h he.symm
      rw [if_pos hc]
      simp [lookupPair, hne]
    · simp only [if_neg hc, lookupPair]
      by_cases hch : ch = c'
      · simp [hch]
      · simp [hch, ih]

theorem lookupPair_replaceList_not_mem {pairs : List (Nat × Val)} :
    ∀ {row : MatRow} {c : Nat}, c ∉ pairs.map Prod.fst →
      lookupPair c (replaceList row pairs) = lookupPair c row := by
  induction pairs with
  | nil => intro row c _; simp [replaceList]
  | cons p rest ih =>
    intro row c h
    simp only [List.map_cons, List.mem_cons, not_or] at h
    simp only [replaceList, List.foldl_cons]
    have := @ih (replacePair row p.1 p.2) c h.2
    simp only [replaceList] at this
    rw [this, lookupPair_replacePair_ne h.1]

theorem lookupPair_replaceList {pairs : List (Nat × Val)} :
    ∀ {row : MatRow} {c : Nat} {v : Val},
      (pairs.map Prod.fst).Nodup → (c, v) ∈ pairs →
      c ∈ row.map Prod.fst →
      lookupPair c (replaceList row pairs) = some v := by
  induction pairs with
  | nil => intro row c v _ h; simp at h
  | cons p rest ih =>
    intro row c v hnd h hmem
    simp only [List.map_cons, List.nodup_cons] at hnd
    simp only [replaceList, List.foldl_cons]
    rcases List.mem_cons.mp h with h1 | h1
    · subst h1
      have hnotin : (c, v).1 ∉ rest.map Prod.fst := hnd.1
      have := @lookupPair_replaceList_not_mem rest
        (replacePair row c v) c hnotin
      simp only [replaceList] at this
      rw [this, lookupPair_replacePair_self hmem]
    · have hm : c ∈ (replacePair row p.1 p.2).map Prod.fst := by
        rw [replacePair_cols]; exact hmem
      have := ih hnd.2 h1 hm
      simpa only [replaceList] using this

theorem updateRow_preserves (m : TpetraMatrix) (g : Nat) (f : MatRow → MatRow) :
    (m.updateRow g f).rowMap = m.rowMap ∧
    (m.updateRow g f).colMap = m.colMap ∧
    (m.updateRow g f).domainMap = m.domainMap ∧
    (m.updateRow g f).rangeMap = m.rangeMap ∧
    (m.updateRow g f).fillComplete = m.fillComplete ∧
    (m.updateRow g f).staticGraph = m.staticGraph := by
  unfold TpetraMatrix.updateRow
  cases locIdx m.rowMap g <;> exact ⟨rfl, rfl, rfl, rfl, rfl, rfl⟩

theorem forceEditable_preserves (A : SparseMatrix) :
    A.forceEditable.mat.rowMap = A.mat.rowMap ∧
    A.forceEditable.mat.rows = A.mat.rows ∧
    A.forceEditable.mat.staticGraph = A.mat.staticGraph ∧
    A.forceEditable.mat.colMap = A.mat.colMap ∧
    A.forceEditable.column_space_map = A.column_space_map := by
  unfold SparseMatrix.forceEditable TpetraMatrix.resumeFill
  by_cases h : (A.compressed || A.mat.fillComplete) = true
  · rw [if_pos h]; exact ⟨rfl, rfl, rfl, rfl, rfl⟩
  · rw [if_neg h]; exact ⟨rfl, rfl, rfl, rfl, rfl⟩

theorem forceEditable_editable (A : SparseMatrix) :
    A.forceEditable.compressed = false ∧
    A.forceEditable.mat.fillComplete = false := by
  by_cases hc : A.compressed <;> by_cases hf : A.mat.fillComplete <;>
    simp [SparseMatrix.forceEditable, TpetraMatrix.resumeFill, hc, hf]

theorem rowOf_congr {m m' : TpetraMatrix} (h1 : m.rowMap = m'.rowMap)
    (h2 : m.rows = m'.rows) (g : Nat) : m.rowOf g = m'.rowOf g := by
  unfold TpetraMatrix.rowOf
  rw [h1, h2]

theorem updateRow_rowOf {m : TpetraMatrix} {g : Nat} (f : MatRow → MatRow)
    (hg : g ∈ m.rowMap) (hlen : m.rows.length = m.rowMap.length) :
    (m.updateRow g f).rowOf g = f (m.rowOf g) := by
  obtain ⟨k, hk⟩ := locIdx_of_mem hg
  have hklt : k < m.rows.length := by
    rw [hlen]; exact locIdx_lt_length hk
  unfold TpetraMatrix.updateRow TpetraMatrix.rowOf
  simp only [hk]
  rw [getD_set]
  simp [hklt]

theorem replaceGV_rowCols (m : TpetraMatrix) (g : Nat)
    (pairs : List (Nat × Val)) (g' : Nat) :
    (m.replaceGlobalValues g pairs).rowCols g' = m.rowCols g' := by
  unfold TpetraMatrix.replaceGlobalValues TpetraMatrix.updateRow
  cases hk : locIdx m.rowMap g with
  | none => rfl
  | some k =>
    unfold TpetraMatrix.rowCols TpetraMatrix.rowOf
    simp only []
    cases hk' : locIdx m.rowMap g' with
    | none => rfl
    | some j =>
      simp only []
      rw [getD_set]
      by_cases hc : k = j ∧ k < m.rows.length
      · rw [if_pos hc, replaceList_cols, hc.1]
      · rw [if_neg hc]

/-- C1: whenever `set(row, n_cols, col_indices, values,
elide_zero_values)` succeeds, the matrix ends up Editable (both the
`compressed` flag and the Tpetra fill-complete flag are cleared before
the write, in particular when the matrix was Finalized on entry); when
the underlying graph is not static the surviving entries are inserted
into the structure of the row, and when the graph is static no row's
structure changes (never inserted) while surviving entries at existing
positions have their values replaced. -/
theorem set_dispatch (A : SparseMatrix) (row : Nat) (cols : List Nat)
    (vals : List Val) (elide : Bool) (A' : SparseMatrix)
    (pairs : List (Nat × Val))
    (hs : setSurvivors elide (cols.zip vals) = .ok pairs)
    (hok : A.set row cols vals elide = .ok A') :
    (A'.compressed = false ∧ A'.mat.fillComplete = false) ∧
    (A.mat.staticGraph = false → row ∈ A.mat.rowMap →
      A.mat.rows.length = A.mat.rowMap.length →
      ∀ c v, (c, v) ∈ pairs → c ∈ A'.mat.rowCols row) ∧
    (A.mat.staticGraph = true →
      ∀ g, A'.mat.rowCols g = A.mat.rowCols g) ∧
    (A.mat.staticGraph = true → row ∈ A.mat.rowMap →
      A.mat.rows.length = A.mat.rowMap.length →
      (pairs.map Prod.fst).Nodup →
      ∀ c v, (c, v) ∈ pairs → c ∈ A.mat.rowCols row →
        lookupPair c (A'.mat.rowOf row) = some v) := by
  unfold SparseMatrix.set at hok
  by_cases hrow : A.m ≤ row
  · rw [if_pos hrow] at hok
    simp at hok
  · rw [if_neg hrow, hs] at hok
    simp only [Bind.bind, Except.bind] at hok
    obtain ⟨hfe1, hfe2, hfe3, hfe4, hfe5⟩ := forceEditable_preserves A
    obtain ⟨hed1, hed2⟩ := forceEditable_editable A
    by_cases hsg : A.forceEditable.mat.staticGraph = false
    · rw [if_pos hsg] at hok
      obtain rfl : { A.forceEditable with
          mat := A.forceEditable.mat.insertGlobalValues row pairs } = A' :=
        by simpa using hok
      have hsgA : A.mat.staticGraph = false := by rw [← hfe3]; exact hsg
      refine ⟨⟨hed1, ?_⟩, ?_, ?_, ?_⟩
      · exact (updateRow_preserves _ _ _).2.2.2.2.1.trans hed2
      · intro _ hmem hlen c v hcv
        have hmem' : row ∈ A.forceEditable.mat.rowMap := by
          rw [hfe1]; exact hmem
        have hlen' : A.forceEditable.mat.rows.length =
            A.forceEditable.mat.rowMap.length := by
          rw [hfe1, hfe2]; exact hlen
        unfold TpetraMatrix.rowCols
        unfold TpetraMatrix.insertGlobalValues
        rw [updateRow_rowOf _ hmem' hlen']
        exact insertList_mem hcv
      · intro hst
        rw [hsgA] at hst
        simp at hst
      · intro hst
        rw [hsgA] at hst
        simp at hst
    · rw [if_neg hsg] at hok
      obtain rfl : { A.forceEditable with
          mat := A.forceEditable.mat.replaceGlobalValues row pairs } = A' :=
        by simpa using hok
      refine ⟨⟨hed1, ?_⟩, ?_, ?_, ?_⟩
      · exact (updateRow_preserves _ _ _).2.2.2.2.1.trans hed2
      · intro hst
        have : A.mat.staticGraph = false := hst
        rw [← hfe3] at this
        exact absurd this hsg
      · intro _ g
        have h1 := replaceGV_rowCols A.forceEditable.mat row pairs g
        have h2 : A.forceEditable.mat.rowCols g = A.mat.rowCols g := by
          unfold TpetraMatrix.rowCols
          rw [rowOf_congr hfe1 hfe2]
        exact h1.trans h2
      · intro _ hmem hlen hnd c v hcv hcmem
        have hmem' : row ∈ A.forceEditable.mat.rowMap := by
          rw [hfe1]; exact hmem
        have hlen' : A.forceEditable.mat.rows.length =
            A.forceEditable.mat.rowMap.length := by
          rw [hfe1, hfe2]; exact hlen
        unfold TpetraMatrix.replaceGlobalValues
        rw [updateRow_rowOf _ hmem' hlen']
        have hro : A.forceEditable.mat.rowOf row = A.mat.rowOf row :=
          rowOf_congr hfe1 hfe2 row
        rw [hro]
        exact lookupPair_replaceList hnd hcv hcmem

/-- Witness for C1 at a concrete input: a `set` on the dynamic-graph
matrix `Adyn` succeeds and, by `set_dispatch`, the surviving entry's
column is inserted into the structure of the written row. -/
theorem set_dispatch_witness :
    Adyn.set 0 [1] [Val.fin 5] false =
      .ok { Adyn with mat := Adyn.mat.insertGlobalValues 0 [(1, Val.fin 5)] } ∧
    1 ∈ ({ Adyn with
        mat := Adyn.mat.insertGlobalValues 0 [(1, Val.fin 5)] } :
          SparseMatrix).mat.rowCols 0 := by
  constructor
  · decide
  · exact (set_dispatch Adyn 0 [1] [Val.fin 5] false
      { Adyn with mat := Adyn.mat.insertGlobalValues 0 [(1, Val.fin 5)] }
      [(1, Val.fin 5)] (by decide) (by decide)).2.1 (by decide) (by decide)
      (by decide) 1 (Val.fin 5) (by decide)

theorem nonfinite_not_eqZero {v : Val} (h : v.isFinite = false) :
    v.eqZero = false := by
  cases v <;> simp_all [Val.isFinite, Val.eqZero]

theorem zip_exists_left {l2 : List Val} :
    ∀ {l1 : List Nat} {v : Val}, l1.length = l2.length → v ∈ l2 →
      ∃ c, (c, v) ∈ l1.zip l2 := by
  induction l2 with
  | nil => intro l1 v _ hv; simp at hv
  | cons x rest ih =>
    intro l1 v hlen hv
    cases l1 with
    | nil => simp at hlen
    | cons a arest =>
      rcases List.mem_cons.mp hv with rfl | hv'
      · exact ⟨a, by simp⟩
      · obtain ⟨c, hc⟩ := @ih arest v (by simpa using hlen) hv'
        exact ⟨c, by simp [hc]⟩

theorem elideFilterSet_error {pairs : List (Nat × Val)}
    (h : ∃ p ∈ pairs, p.2.isFinite = false) :
    ∃ e, elideFilterSet pairs = .error e := by
  induction pairs with
  | nil => obtain ⟨p, hp, _⟩ := h; simp at hp
  | cons hd rest ih =>
    obtain ⟨c, v⟩ := hd
    by_cases hf : v.isFinite = false
    · exact ⟨.notFinite, by simp [elideFilterSet, hf]⟩
    · have hrest : ∃ p ∈ rest, p.2.isFinite = false := by
        obtain ⟨p, hp, hpf⟩ := h
        rcases List.mem_cons.mp hp with rfl | hp'
        · exact absurd hpf hf
        · exact ⟨p, hp', hpf⟩
      obtain ⟨e, he⟩ := ih hrest
      refine ⟨e, ?_⟩
      simp only [elideFilterSet, hf]
      by_cases hz : v.eqZero
      · simp [hz, he]
      · simp [hz, he, Bind.bind, Except.bind]

theorem countZeros_ne_of_nonzero {vals : List Val} {v : Val}
    (hv : v ∈ vals) (hz : v.eqZero = false) :
    countZeros vals ≠ vals.length := by
  induction vals with
  | nil => simp at hv
  | cons x rest ih =>
    have hle := List.countP_le_length (p := Val.eqZero) (l := rest)
    rw [countZeros, List.countP_cons, List.length_cons]
    rcases List.mem_cons.mp hv with rfl | hv'
    · rw [hz]
      simp only [Bool.false_eq_true, if_false]
      omega
    · have hne := ih hv'
      rw [countZeros] at hne
      by_cases hcx : x.eqZero = true
      · rw [hcx]
        simp only [if_true]
        omega
      · rw [Bool.not_eq_true] at hcx
        rw [hcx]
        simp only [Bool.false_eq_true, if_false]
        omega

theorem buildAddNoElide_error {n : Nat} :
    ∀ {pairs : List (Nat × Val)}, (∃ p ∈ pairs, p.2.isFinite = false) →
      ∃ e, buildAddNoElide n pairs = .error e := by
  intro pairs h
  induction pairs with
  | nil => obtain ⟨p, hp, _⟩ := h; simp at hp
  | cons hd rest ih =>
    obtain ⟨c, v⟩ := hd
    by_cases hf : v.isFinite = false
    · exact ⟨.notFinite, by simp [buildAddNoElide, hf]⟩
    · have hrest : ∃ p ∈ rest, p.2.isFinite = false := by
        obtain ⟨p, hp, hpf⟩ := h
        rcases List.mem_cons.mp hp with rfl | hp'
        · exact absurd hpf hf
        · exact ⟨p, hp', hpf⟩
      obtain ⟨e, he⟩ := ih hrest
      by_cases hc : n ≤ c
      · exact ⟨.indexRange, by simp [buildAddNoElide, hf, hc]⟩
      · exact ⟨e, by simp [buildAddNoElide, hf, hc, he, Bind.bind, Except.bind]⟩

theorem buildAddElide_error {n nZero : Nat} :
    ∀ {pairs : List (Nat × Val)}, (∃ p ∈ pairs, p.2.isFinite = false) →
      ∀ k, ∃ e, buildAddElide n nZero pairs k = .error e := by
  intro pairs h
  induction pairs with
  | nil => obtain ⟨p, hp, _⟩ := h; simp at hp
  | cons hd rest ih =>
    intro k
    obtain ⟨c, v⟩ := hd
    by_cases hz : v.eqZero
    · have hrest : ∃ p ∈ rest, p.2.isFinite = false := by
        obtain ⟨p, hp, hpf⟩ := h
        rcases List.mem_cons.mp hp with rfl | hp'
        · rw [nonfinite_not_eqZero hpf] at hz; exact absurd hz (by simp)
        · exact ⟨p, hp', hpf⟩
      obtain ⟨e, he⟩ := ih hrest k
      exact ⟨e, by simp [buildAddElide, hz, he]⟩
    · by_cases hf : v.isFinite = false
      · exact ⟨.notFinite, by simp [buildAddElide, hz, hf]⟩
      · have hrest : ∃ p ∈ rest, p.2.isFinite = false := by
          obtain ⟨p, hp, hpf⟩ := h
          rcases List.mem_cons.mp hp with rfl | hp'
          · exact absurd hpf hf
          · exact ⟨p, hp', hpf⟩
        by_cases hc : n ≤ c
        · exact ⟨.indexRange, by simp [buildAddElide, hz, hf, hc]⟩
        · by_cases hk : nZero ≤ k
          · exact ⟨.indexRange, by simp [buildAddElide, hz, hf, hc, hk]⟩
          · obtain ⟨e, he⟩ := ih hrest (k + 1)
            exact ⟨e, by simp [buildAddElide, hz, hf, hc, hk, he,
              Bind.bind, Except.bind]⟩

/-- C2, counterexample: the claim says any NaN or Inf supplied to `set`
triggers a fatal assertion regardless of zero-elision.  With
`elide_zero_values = false` the value pointers are passed through with
no `AssertIsFinite` (the check sits only in the elision branch, lines
885-905), so a NaN is accepted and stored. -/
theorem set_accepts_nonfinite_cex :
    Adyn.set 0 [0] [Val.nan] false =
      .ok { Adyn with mat := Adyn.mat.insertGlobalValues 0 [(0, Val.nan)] } := by
  decide

/-- C2, amended: for a row in range, a NaN or Inf among the values
makes `set` with `elide_zero_values = true` and `add` in both modes
fail with a fatal assertion, but `set` with `elide_zero_values = false`
performs no finiteness check and succeeds. -/
theorem nonfinite_checks (A : SparseMatrix) (row : Nat) (cols : List Nat)
    (vals : List Val) (hrow : row < A.m) (hlen : cols.length = vals.length)
    (hnf : ∃ v ∈ vals, v.isFinite = false) :
    (∃ e, A.set row cols vals true = .error e) ∧
    (∀ elide, ∃ e, A.add row cols vals elide = .error e) ∧
    (∃ A1, A.set row cols vals false = .ok A1) := by
  have hrow' : ¬ (A.m ≤ row) := by omega
  obtain ⟨v, hv, hvf⟩ := hnf
  obtain ⟨c, hc⟩ := zip_exists_left hlen hv
  have hpair : ∃ p ∈ cols.zip vals, p.2.isFinite = false := ⟨(c, v), hc, hvf⟩
  refine ⟨?_, ?_, ?_⟩
  · obtain ⟨e, he⟩ := elideFilterSet_error hpair
    refine ⟨e, ?_⟩
    unfold SparseMatrix.set setSurvivors
    rw [if_neg hrow']
    simp [he, Bind.bind, Except.bind]
  · intro elide
    unfold SparseMatrix.add
    rw [if_neg hrow']
    cases elide with
    | true =>
      have hzne : ¬ (countZeros vals = vals.length) :=
        countZeros_ne_of_nonzero hv (nonfinite_not_eqZero hvf)
      obtain ⟨e, he⟩ :=
        @buildAddElide_error A.n (countZeros vals) (cols.zip vals) hpair 0
      exact ⟨e, by simp [hzne, he, Bind.bind, Except.bind]⟩
    | false =>
      have hne : vals ≠ [] := by
        intro h0; rw [h0] at hv; simp at hv
      have h0 : ¬ ((0 : Nat) = vals.length) := by
        intro h0
        exact hne (List.length_eq_zero.mp h0.symm)
      obtain ⟨e, he⟩ := buildAddNoElide_error (n := A.n) hpair
      exact ⟨e, by simp [h0, he, Bind.bind, Except.bind]⟩
  · unfold SparseMatrix.set setSurvivors
    rw [if_neg hrow']
    by_cases hsg : A.forceEditable.mat.staticGraph = false
    · refine ⟨{ A.forceEditable with
          mat := A.forceEditable.mat.insertGlobalValues row (cols.zip vals) }, ?_⟩
      simp [hsg, Bind.bind, Except.bind]
    · refine ⟨{ A.forceEditable with
          mat := A.forceEditable.mat.replaceGlobalValues row (cols.zip vals) }, ?_⟩
      simp [hsg, Bind.bind, Except.bind]

/-- Witness for the amended C2 at a concrete NaN input. -/
theorem nonfinite_checks_witness :
    (∃ e, Adyn.set 0 [0] [Val.nan] true = .error e) ∧
    (∀ elide, ∃ e, Adyn.add 0 [0] [Val.nan] elide = .error e) ∧
    (∃ A1, Adyn.set 0 [0] [Val.nan] false = .ok A1) :=
  nonfinite_checks Adyn 0 [0] [Val.nan] (by decide) (by decide)
    ⟨Val.nan, by decide, by decide⟩

theorem forceEditable_maps (A : SparseMatrix) :
    A.forceEditable.mat.domainMap = A.mat.domainMap ∧
    A.forceEditable.mat.rangeMap = A.mat.rangeMap := by
  unfold SparseMatrix.forceEditable TpetraMatrix.resumeFill
  by_cases h : (A.compressed || A.mat.fillComplete) = true
  · rw [if_pos h]; exact ⟨rfl, rfl⟩
  · rw [if_neg h]; exact ⟨rfl, rfl⟩

theorem countZeros_eq_length {vals : List Val}
    (hz : ∀ v ∈ vals, v.eqZero = true) :
    countZeros vals = vals.length := by
  induction vals with
  | nil => rfl
  | cons x rest ih =>
    have hx := hz x (by simp)
    have hr := ih (fun v hv => hz v (List.mem_cons_of_mem _ hv))
    unfold countZeros at *
    simp [List.countP_cons, hx, hr]

/-- C8, counterexample: the claim says an `add` whose values are all
zero (with elision) leaves the fill state unchanged.  The code calls
`resumeFill()` and clears `compressed` *before* the all-zero early exit
(lines 968-983), so on a Finalized matrix such a call does change the
fill state. -/
theorem add_elided_zero_changes_state_cex :
    Afix.add 0 [0] [Val.fin 0] true = .ok Afix.forceEditable ∧
    Afix.compressed = true ∧
    Afix.forceEditable.compressed = false ∧
    Afix.forceEditable ≠ Afix := by
  refine ⟨by decide, rfl, rfl, by decide⟩

/-- C8, amended: an `add(row, cols, vals, elideZeros = true)` whose
values are all zero returns after forcing the matrix Editable: the
stored rows, all maps, the static-graph flag and the column
partitioning are left exactly as before, and only the fill state may
change (a Finalized matrix becomes Editable). -/
theorem add_all_zero_elided (A : SparseMatrix) (row : Nat) (cols : List Nat)
    (vals : List Val) (hrow : row < A.m)
    (hz : ∀ v ∈ vals, v.eqZero = true) :
    A.add row cols vals true = .ok A.forceEditable ∧
    A.forceEditable.mat.rows = A.mat.rows ∧
    A.forceEditable.mat.rowMap = A.mat.rowMap ∧
    A.forceEditable.mat.colMap = A.mat.colMap ∧
    A.forceEditable.mat.domainMap = A.mat.domainMap ∧
    A.forceEditable.mat.rangeMap = A.mat.rangeMap ∧
    A.forceEditable.mat.staticGraph = A.mat.staticGraph ∧
    A.forceEditable.column_space_map = A.column_space_map := by
  obtain ⟨hfe1, hfe2, hfe3, hfe4, hfe5⟩ := forceEditable_preserves A
  obtain ⟨hm1, hm2⟩ := forceEditable_maps A
  have hrow' : ¬ (A.m ≤ row) := by omega
  have hcount := countZeros_eq_length hz
  refine ⟨?_, hfe2, hfe1, hfe4, hm1, hm2, hfe3, hfe5⟩
  unfold SparseMatrix.add
  rw [if_neg hrow']
  simp [hcount]

/-- Witness for the amended C8 at a concrete all-zero input. -/
theorem add_all_zero_elided_witness :
    Afix.add 0 [0, 1] [Val.fin 0, Val.fin 0] true = .ok Afix.forceEditable ∧
    Afix.forceEditable.mat.rows = Afix.mat.rows ∧
    Afix.forceEditable.mat.rowMap = Afix.mat.rowMap ∧
    Afix.forceEditable.mat.colMap = Afix.mat.colMap ∧
    Afix.forceEditable.mat.domainMap = Afix.mat.domainMap ∧
    Afix.forceEditable.mat.rangeMap = Afix.mat.rangeMap ∧
    Afix.forceEditable.mat.staticGraph = Afix.mat.staticGraph ∧
    Afix.forceEditable.column_space_map = Afix.column_space_map :=
  add_all_zero_elided Afix 0 [0, 1] [Val.fin 0, Val.fin 0]
    (by decide) (by decide)

/-- C4: `element(i, j, tolerant)` — if the global row or the global
column fails to translate to a local slot, the call returns exactly
zero when tolerant and fails fatally when intolerant; if both translate
(on a fill-complete matrix, as the code asserts next), the row is
scanned linearly: a found entry returns the stored value under either
flag, and a structurally absent pair returns exactly zero when tolerant
and fails fatally when intolerant. -/
theorem element_lookup (A : SparseMatrix) (i j : Nat) :
    ((locIdx A.mat.rowMap i = none ∨ locIdx A.mat.colMap j = none) →
      A.element i j true = .ok (Val.fin 0) ∧
      A.element i j false = .error .accessToNonLocalElement) ∧
    (∀ a b, locIdx A.mat.rowMap i = some a →
      locIdx A.mat.colMap j = some b →
      A.mat.fillComplete = true →
      (∀ v, scanRow A.mat.colMap b (A.mat.rows.getD a []) = some v →
        A.element i j true = .ok v ∧ A.element i j false = .ok v) ∧
      (scanRow A.mat.colMap b (A.mat.rows.getD a []) = none →
        A.element i j true = .ok (Val.fin 0) ∧
        A.element i j false = .error .invalidIndex)) := by
  constructor
  · intro h
    unfold SparseMatrix.element
    rcases h with h | h
    · rw [h]
      cases locIdx A.mat.colMap j <;> exact ⟨rfl, rfl⟩
    · rw [h]
      cases locIdx A.mat.rowMap i <;> exact ⟨rfl, rfl⟩
  · intro a b hti htj hfc
    unfold SparseMatrix.element
    rw [hti, htj]
    constructor
    · intro v hv
      simp only [List.getD_eq_getElem?_getD] at hv
      simp [hfc, hv]
    · intro hv
      simp only [List.getD_eq_getElem?_getD] at hv
      simp [hfc, hv]

/-- Witness for C4: on the compressed matrix `Afix`, the stored entry
(0,1) is found by the scan and returned under both tolerance flags. -/
theorem element_lookup_witness :
    Afix.element 0 1 true = .ok (Val.fin 3) ∧
    Afix.element 0 1 false = .ok (Val.fin 3) :=
  ((element_lookup Afix 0 1).2 0 1 (by decide) (by decide) (by decide)).1
    (Val.fin 3) (by decide)


theorem zip_map_add (dist : List Nat) (vals : List Val) (f : Nat → Val) :
    (dist.zip vals).map (fun gv => Val.add gv.2 (f gv.1)) =
      List.zipWith Val.add vals (dist.map f) := by
  induction dist generalizing vals with
  | nil => simp
  | cons x rest ih =>
    cases vals with
    | nil => simp
    | cons v vrest => simp [ih]

/-- C3: each of `vmult`, `Tvmult`, `vmult_add`, `Tvmult_add` fails
fatally when `src` and `dst` alias the same storage, when the matrix is
not fill-complete, or when the operand distributions mismatch (`src` on
the domain map and `dst` on the range map for the plain variants, the
two checks swapped for the transpose variants); when all preconditions
hold, the plain variants overwrite `dst` with `A src` (resp.
`A^T src`) while the `_add` variants accumulate it onto `dst`. -/
theorem multiply_contracts (A : SparseMatrix) (dst src : Vec) :
    ((dst.addr = src.addr ∨ A.mat.fillComplete = false ∨
      src.dist ≠ A.mat.domainMap ∨ dst.dist ≠ A.mat.rangeMap) →
      (∃ e, A.vmult dst src = .error e) ∧
      (∃ e, A.vmult_add dst src = .error e)) ∧
    ((dst.addr = src.addr ∨ A.mat.fillComplete = false ∨
      dst.dist ≠ A.mat.domainMap ∨ src.dist ≠ A.mat.rangeMap) →
      (∃ e, A.Tvmult dst src = .error e) ∧
      (∃ e, A.Tvmult_add dst src = .error e)) ∧
    (dst.addr ≠ src.addr → A.mat.fillComplete = true →
      src.dist = A.mat.domainMap → dst.dist = A.mat.rangeMap →
      A.vmult dst src =
        .ok { dst with vals := dst.dist.map (A.mat.applyNoTrans src) } ∧
      A.vmult_add dst src = .ok { dst with vals :=
        (List.zipWith Val.add dst.vals
          (dst.dist.map (A.mat.applyNoTrans src))) }) ∧
    (dst.addr ≠ src.addr → A.mat.fillComplete = true →
      dst.dist = A.mat.domainMap → src.dist = A.mat.rangeMap →
      A.Tvmult dst src =
        .ok { dst with vals := dst.dist.map (A.mat.applyTrans src) } ∧
      A.Tvmult_add dst src = .ok { dst with vals :=
        (List.zipWith Val.add dst.vals
          (dst.dist.map (A.mat.applyTrans src))) }) := by
  refine ⟨?_, ?_, ?_, ?_⟩
  · intro h
    unfold SparseMatrix.vmult SparseMatrix.vmult_add
    by_cases h1 : dst.addr = src.addr
    · simp [h1]
    · by_cases h2 : A.mat.fillComplete = false
      · simp [h1, h2]
      · by_cases h3 : src.dist = A.mat.domainMap
        · by_cases h4 : dst.dist = A.mat.rangeMap
          · rcases h with h | h | h | h
            · exact absurd h h1
            · exact absurd h h2
            · exact absurd h3 h
            · exact absurd h4 h
          · simp [h1, h2, h3, h4]
        · simp [h1, h2, h3]
  · intro h
    unfold SparseMatrix.Tvmult SparseMatrix.Tvmult_add
    by_cases h1 : dst.addr = src.addr
    · simp [h1]
    · by_cases h2 : A.mat.fillComplete = false
      · simp [h1, h2]
      · by_cases h3 : dst.dist = A.mat.domainMap
        · by_cases h4 : src.dist = A.mat.rangeMap
          · rcases h with h | h | h | h
            · exact absurd h h1
            · exact absurd h h2
            · exact absurd h3 h
            · exact absurd h4 h
          · simp [h1, h2, h3, h4]
        · simp [h1, h2, h3]
  · intro h1 h2 h3 h4
    have h2' : ¬ (A.mat.fillComplete = false) := by rw [h2]; simp
    unfold SparseMatrix.vmult SparseMatrix.vmult_add
    rw [if_neg h1, if_neg h2', if_neg (by rw [h3]; simp), if_neg (by rw [h4]; simp)]
    rw [if_neg h1, if_neg h2', if_neg (by rw [h3]; simp), if_neg (by rw [h4]; simp)]
    exact ⟨rfl, by rw [zip_map_add]⟩
  · intro h1 h2 h3 h4
    have h2' : ¬ (A.mat.fillComplete = false) := by rw [h2]; simp
    unfold SparseMatrix.Tvmult SparseMatrix.Tvmult_add
    rw [if_neg h1, if_neg h2', if_neg (by rw [h3]; simp), if_neg (by rw [h4]; simp)]
    rw [if_neg h1, if_neg h2', if_neg (by rw [h3]; simp), if_neg (by rw [h4]; simp)]
    exact ⟨rfl, by rw [zip_map_add]⟩

/-- Witness for C3 on the compressed matrix `Afix` with concrete
vectors: the plain and accumulating products and one aliasing
failure. -/
theorem multiply_contracts_witness :
    (Afix.vmult Vdst Vsrc =
      .ok { Vdst with vals := Vdst.dist.map (Afix.mat.applyNoTrans Vsrc) }) ∧
    (Afix.vmult_add Vdst Vsrc = .ok { Vdst with vals :=
      (List.zipWith Val.add Vdst.vals
        (Vdst.dist.map (Afix.mat.applyNoTrans Vsrc))) }) ∧
    (Afix.Tvmult Vdst Vsrc =
      .ok { Vdst with vals := Vdst.dist.map (Afix.mat.applyTrans Vsrc) }) ∧
    (∃ e, Afix.vmult Vdst Vdst = .error e) :=
  ⟨((multiply_contracts Afix Vdst Vsrc).2.2.1 (by decide) (by decide)
      (by decide) (by decide)).1,
   ((multiply_contracts Afix Vdst Vsrc).2.2.1 (by decide) (by decide)
      (by decide) (by decide)).2,
   ((multiply_contracts Afix Vdst Vsrc).2.2.2 (by decide) (by decide)
      (by decide) (by decide)).1,
   ((multiply_contracts Afix Vdst Vdst).1 (Or.inl rfl)).1⟩


theorem dropIt_subset (b : Option Nat) (l : MatRow) :
    ∀ x ∈ dropIt b l, x ∈ l := by
  intro x hx
  unfold dropIt at hx
  exact (List.dropWhile_sublist _).subset hx

theorem mergeLoopF_mem (tol : Int) :
    ∀ (fuel : Nat) (mrow : MatRow) (prow : List Nat) (x : Nat × Val),
      x ∈ mergeLoopF tol fuel mrow prow →
      x ∈ mrow ∧ x.2.fabsGt tol = true := by
  intro fuel
  induction fuel with
  | zero =>
    intro mrow prow x hx
    simp [mergeLoopF] at hx
  | succ f ih =>
    intro mrow prow x hx
    match mrow, prow with
    | [], _ => simp [mergeLoopF] at hx
    | _ :: _, [] => simp [mergeLoopF] at hx
    | (c0, v0) :: mtail, p0 :: ptail =>
      rw [mergeLoopF] at hx
      cases hd : dropIt (dropSel c0 (p0 :: ptail)).head? ((c0, v0) :: mtail) with
      | nil =>
        rw [hd] at hx
        simp at hx
      | cons hd0 mrest =>
        obtain ⟨c, v⟩ := hd0
        rw [hd] at hx
        have hx2 : x ∈ (if v.fabsGt tol = true then
            (c, v) :: mergeLoopF tol f mrest ((dropSel c0 (p0 :: ptail)).drop 1)
          else mergeLoopF tol f mrest ((dropSel c0 (p0 :: ptail)).drop 1)) := hx
        clear hx
        have hsub : ∀ y ∈ (c, v) :: mrest, y ∈ (c0, v0) :: mtail := by
          intro y hy
          exact dropIt_subset _ _ y (hd ▸ hy)
        by_cases hft : v.fabsGt tol = true
        · rw [if_pos hft] at hx2
          rcases List.mem_cons.mp hx2 with rfl | hx'
          · exact ⟨hsub _ (by simp), hft⟩
          · obtain ⟨h1, h2⟩ := ih mrest ((dropSel c0 (p0 :: ptail)).drop 1) x hx'
            exact ⟨hsub _ (List.mem_cons_of_mem _ h1), h2⟩
        · rw [if_neg hft] at hx2
          obtain ⟨h1, h2⟩ := ih mrest ((dropSel c0 (p0 :: ptail)).drop 1) x hx2
          exact ⟨hsub _ (List.mem_cons_of_mem _ h1), h2⟩

theorem mergeLoop_mem (tol : Int) (mrow : MatRow) (prow : List Nat)
    (x : Nat × Val) (hx : x ∈ mergeLoop tol mrow prow) :
    x ∈ mrow ∧ x.2.fabsGt tol = true :=
  mergeLoopF_mem tol mrow.length mrow prow x hx

/-- C9: whenever the per-row value copy of
`reinit(..., dealii_sparse_matrix, drop_tolerance, ...)` succeeds, every
(column, value) pair it hands to `set` is an entry of the reference
matrix row and has magnitude strictly greater than the drop tolerance
(so every value at or below the tolerance is skipped), and for a square
pattern the reference row's first entry is the diagonal, handled before
the lockstep merge of the two column-sorted rows. -/
theorem reinit_drop_tolerance (square : Bool) (row : Nat) (tol : Int)
    (mrow : MatRow) (prow : List Nat) (out : MatRow)
    (hok : copyRowValues square row tol mrow prow = .ok out) :
    (∀ x ∈ out, x ∈ mrow ∧ x.2.fabsGt tol = true) ∧
    (square = true → ∃ v mtail, mrow = (row, v) :: mtail) := by
  unfold copyRowValues at hok
  by_cases hsq : square = true
  · rw [if_pos hsq] at hok
    match mrow, prow with
    | [], _ => simp at hok
    | _ :: _, [] => simp at hok
    | (c, v) :: mtail, p0 :: ptail =>
      have hok2 : (if c ≠ row then
            (Except.error AssertErr.dimensionMismatch : Except AssertErr MatRow)
          else if v.fabsGt tol = true then
            .ok ((c, v) :: mergeLoop tol mtail ptail)
          else .ok (mergeLoop tol mtail ptail)) = .ok out := hok
      clear hok
      by_cases hcrow : c ≠ row
      · rw [if_pos hcrow] at hok2
        simp at hok2
      · rw [if_neg hcrow] at hok2
        push_neg at hcrow
        subst hcrow
        by_cases hft : v.fabsGt tol = true
        · rw [if_pos hft] at hok2
          obtain rfl : (c, v) :: mergeLoop tol mtail ptail = out := by
            simpa using hok2
          refine ⟨?_, fun _ => ⟨v, mtail, rfl⟩⟩
          intro x hx
          rcases List.mem_cons.mp hx with rfl | hx'
          · exact ⟨by simp, hft⟩
          · obtain ⟨h1, h2⟩ := mergeLoop_mem tol mtail ptail x hx'
            exact ⟨List.mem_cons_of_mem _ h1, h2⟩
        · rw [if_neg hft] at hok2
          obtain rfl : mergeLoop tol mtail ptail = out := by simpa using hok2
          refine ⟨?_, fun _ => ⟨v, mtail, rfl⟩⟩
          intro x hx
          obtain ⟨h1, h2⟩ := mergeLoop_mem tol mtail ptail x hx
          exact ⟨List.mem_cons_of_mem _ h1, h2⟩
  · rw [if_neg hsq] at hok
    obtain rfl : mergeLoop tol mrow prow = out := by simpa using hok
    refine ⟨?_, fun hs => absurd hs hsq⟩
    intro x hx
    exact mergeLoop_mem tol mrow prow x hx

/-- Witness for C9: a concrete square row walk with drop tolerance 1
keeps exactly the diagonal entry 5 and the off-diagonal entry 4 and
skips the magnitude-1 entry. -/
theorem reinit_drop_tolerance_witness :
    copyRowValues true 0 1
      [(0, Val.fin 5), (2, Val.fin 1), (3, Val.fin 4)] [0, 2, 3] =
      .ok [(0, Val.fin 5), (3, Val.fin 4)] ∧
    (∀ x ∈ ([(0, Val.fin 5), (3, Val.fin 4)] : MatRow),
      x ∈ ([(0, Val.fin 5), (2, Val.fin 1), (3, Val.fin 4)] : MatRow) ∧
      x.2.fabsGt 1 = true) :=
  ⟨by decide,
   (reinit_drop_tolerance true 0 1
      [(0, Val.fin 5), (2, Val.fin 1), (3, Val.fin 4)] [0, 2, 3]
      [(0, Val.fin 5), (3, Val.fin 4)] (by decide)).1⟩
